import Mathlib

/-!
# Shallow embedding of `src/steam.rs` (steam-patch)

This file embeds the operations of `SteamClient` — the patch applier
(`patch`), the send-retry loop (`send_message`), the discovery loop
(`get_context`), the log-event handler inside `watch`, the startup section of
`watch`, and `get_log_path` — as executable Lean definitions, and proves
theorems checking the specification's claims about them.

File contents are modelled as `List Char`; the filesystem, network and
process environment are explicit parameters.  A Rust `unwrap`/`expect` panic
is modelled as a distinguished `panicked` outcome.
-/

namespace SteamPatch

/-- Behaviour of Rust `str::replace` with an empty pattern: the replacement is
inserted at every character boundary (`"ab".replace("", "x") = "xaxbx"`). -/
def interleave (rep : List Char) : List Char → List Char
  | [] => rep
  | c :: rest => rep ++ c :: interleave rep rest

/-- Worker for `replaceAll` when the pattern is nonempty: scans the text left
to right; a positive `skip` means we are inside an already-replaced match and
the next `skip` characters are consumed without output. -/
def replaceGo (pat rep : List Char) : List Char → Nat → List Char
  | [], _ => []
  | _ :: rest, Nat.succ k => replaceGo pat rep rest k
  | c :: rest, 0 =>
    if pat.isPrefixOf (c :: rest) then rep ++ replaceGo pat rep rest (pat.length - 1)
    else c :: replaceGo pat rep rest 0

/-- Embedding of Rust `String::replace` (used in `SteamClient::patch`):
replaces every non-overlapping occurrence of `pat` in `s` by `rep`, scanning
left to right. -/
def replaceAll (pat rep s : List Char) : List Char :=
  if pat.isEmpty then interleave rep s else replaceGo pat rep s 0

/-- Embedding of Rust `str::contains` with a string pattern (used in
`SteamClient::watch`): `pat` occurs as a contiguous substring of the text. -/
def occursIn (pat : List Char) : List Char → Bool
  | [] => pat.isEmpty
  | c :: rest => pat.isPrefixOf (c :: rest) || occursIn pat rest

/-- Modelled from the spec: the type `crate::patch::Patch` lives outside
`src/steam.rs`; §3 gives `PatchRule: { targetFile, textToFind, replacementText }`.
`destination` stands for the path string
`patch.destination.get_file().unwrap().to_str().unwrap()` used by `patch`. -/
structure Patch where
  destination : String
  text_to_find : List Char
  replacement_text : List Char

/-- The filesystem as seen by `SteamClient::patch`: per-path contents (`none`
means `fs::read_to_string` fails there) and whether `fs::write` succeeds on a
path. -/
structure FS where
  files : String → Option (List Char)
  writeOk : String → Bool

/-- Effect of a successful `fs::write(path, content)`. -/
def FS.write (fs : FS) (p : String) (c : List Char) : FS :=
  { files := fun q => if q = p then some c else fs.files q, writeOk := fs.writeOk }

/-- Lookup in the `opened_files` buffer (Rust `HashMap` access). -/
def lookupBuf (path : String) : List (String × List Char) → Option (List Char)
  | [] => none
  | (q, c) :: rest => if q = path then some c else lookupBuf path rest

/-- Replace the value stored for an existing key of the buffer
(the `*content = content.replace(..)` assignment through the entry). -/
def setBuf (path : String) (c : List Char) : List (String × List Char) → List (String × List Char)
  | [] => [(path, c)]
  | (q, d) :: rest => if q = path then (q, c) :: rest else (q, d) :: setBuf path c rest

/-- First loop of `SteamClient::patch` (src/steam.rs:33-42): builds
`opened_files`, lazily reading each path on first reference
(`entry(..).or_insert_with(|| fs::read_to_string(..).unwrap())` — the `unwrap`
panics when the read fails, modelled by the `none` result), then replacing all
occurrences of the rule's `text_to_find` in that file's buffer.  The returned
list also keeps insertion order, and the second component is the trace of
paths read from disk. -/
def buildBuffer (fs : FS) : List Patch → List (String × List Char) → List String →
    Option (List (String × List Char) × List String)
  | [], buf, reads => some (buf, reads)
  | p :: ps, buf, reads =>
    match lookupBuf p.destination buf with
    | some c =>
        buildBuffer fs ps
          (setBuf p.destination (replaceAll p.text_to_find p.replacement_text c) buf) reads
    | none =>
      match fs.files p.destination with
      | none => none
      | some c0 =>
          buildBuffer fs ps
            (buf ++ [(p.destination, replaceAll p.text_to_find p.replacement_text c0)])
            (reads ++ [p.destination])

/-- Second loop of `SteamClient::patch` (src/steam.rs:44-46):
`fs::write(path, content)?` for every buffered file; the `?` aborts at the
first failing write.  Returns the filesystem, the trace of paths written, and
whether every write succeeded.  (The Rust loop iterates a `HashMap` in
unspecified order; the model fixes insertion order, which no claim depends
on.) -/
def writeAll : FS → List (String × List Char) → List String → FS × List String × Bool
  | fs, [], ws => (fs, ws, true)
  | fs, (p, c) :: rest, ws =>
    if fs.writeOk p then writeAll (fs.write p c) rest (ws ++ [p])
    else (fs, ws, false)

/-- Result of `SteamClient::patch`, with read/write traces: `panicked` models
an `unwrap` panic on a failed read, `error` the `Err` returned when a write
fails. -/
inductive PatchResult where
  | panicked : PatchResult
  | error : FS → List String → List String → PatchResult
  | ok : FS → List String → List String → PatchResult

/-- Embedding of `SteamClient::patch` (src/steam.rs:30-49). -/
def steamPatch (fs : FS) (patches : List Patch) : PatchResult :=
  match buildBuffer fs patches [] [] with
  | none => .panicked
  | some (buf, reads) =>
    match writeAll fs buf [] with
    | (fs', writes, true) => .ok fs' reads writes
    | (fs', writes, false) => .error fs' reads writes

/-- Projection used to chain two runs of `steamPatch` on concrete inputs. -/
def okFS : PatchResult → Option FS
  | .ok fs _ _ => some fs
  | _ => none

/-- Sequential application, in list order, of patch rules to one in-memory
buffer (the per-file effect `steamPatch` is proved to compute). -/
def applyRules (c : List Char) (ps : List Patch) : List Char :=
  ps.foldl (fun c p => replaceAll p.text_to_find p.replacement_text c) c

/-- One entry of the `/json` discovery response (struct `Tab`,
src/steam.rs:20-23). -/
structure Tab where
  title : String
  webSocketDebuggerUrl : String

/-- The predicate of the `find` inside `get_context` (src/steam.rs:114-116):
`tab.title == "SharedJSContext" && !tab.webSocketDebuggerUrl.is_empty()`. -/
def tabMatches (tab : Tab) : Bool :=
  tab.title == "SharedJSContext" && !tab.webSocketDebuggerUrl.isEmpty

/-- Tab selection inside `get_context`: first matching tab of the response, in
response order, projected to its socket url. -/
def selectTab (tabs : List Tab) : Option String :=
  (tabs.find? tabMatches).map fun tab => tab.webSocketDebuggerUrl

/-- Outcome of one `client.get(uri)` attempt in `get_context`: transport error
(`Err`), a failure of `hyper::body::to_bytes` (whose `.unwrap()` panics), or a
received body whose `serde_json` parse yields `some tabs` — `none` when the
body is malformed (`unwrap_or_else(|_| Vec::new())`). -/
inductive RequestOutcome where
  | transportError : RequestOutcome
  | bodyReadError : RequestOutcome
  | body : Option (List Tab) → RequestOutcome

/-- Environment of `get_context`: outcome and duration in milliseconds of each
GET, by attempt index. -/
structure DiscEnv where
  request : Nat → RequestOutcome
  requestMs : Nat → Nat

/-- Result of `get_context`: `timeout e` is the `None` return after `e` ms of
elapsed time, `found url` the selected tab's url, `panicked` the
`to_bytes(..).unwrap()` panic.  `fuelOut` is an artifact of the structural
fuel and is unreachable from `getContext` (see `getContextLoop_ne_fuelOut`). -/
inductive GCResult where
  | panicked : GCResult
  | timeout : Nat → GCResult
  | found : String → GCResult
  | fuelOut : GCResult

/-- The polling loop of `SteamClient::get_context` (src/steam.rs:96-125).
Elapsed time grows by each request's duration plus the fixed
`sleep(Duration::from_millis(50))` between attempts; the loop returns `None`
(`.timeout`) as soon as elapsed time strictly exceeds 60 000 ms, checked at
the top of each iteration.  The `fuel` argument only bounds the recursion:
every iteration advances elapsed time by at least 50 ms, so the fuel used by
`getContext` can never run out. -/
def getContextLoop (env : DiscEnv) : Nat → Nat → Nat → GCResult
  | 0, _, elapsed => if 60000 < elapsed then .timeout elapsed else .fuelOut
  | Nat.succ fuel, n, elapsed =>
    if 60000 < elapsed then .timeout elapsed
    else
      match env.request n with
      | .transportError => getContextLoop env fuel (n + 1) (elapsed + env.requestMs n + 50)
      | .bodyReadError => .panicked
      | .body parsed =>
        match selectTab (parsed.getD []) with
        | some url => .found url
        | none => getContextLoop env fuel (n + 1) (elapsed + env.requestMs n + 50)

/-- Embedding of `SteamClient::get_context`: the loop started at attempt 0,
elapsed time 0.  1202 fuel suffices: after 1201 iterations elapsed time is at
least 60 050 ms and the loop has returned. -/
def getContext (env : DiscEnv) : GCResult :=
  getContextLoop env 1202 0 0

/-- Attempt `n` completes without finding a matching target: a transport
error, or a received body (possibly malformed, parsed as zero tabs) that
contains no matching tab. -/
def attemptFails (env : DiscEnv) (n : Nat) : Prop :=
  match env.request n with
  | .transportError => True
  | .bodyReadError => False
  | .body parsed => selectTab (parsed.getD []) = none

/-- Environment of `SteamClient::send_message`: per attempt index, whether
`socket.send` succeeds on the given socket, the discovery environment seen by
that attempt's `Self::get_context().await` rediscovery call, and what socket
`tungstenite::connect` yields.  Sockets are identifiers. -/
structure SendEnv where
  sendOk : Nat → Nat → Bool
  disc : Nat → DiscEnv
  connectSock : Nat → String → Option Nat

/-- Result of `send_message`: `panicked` when a rediscovery call panicked
(inside `get_context`, on a response-body read failure), otherwise the final
socket, the number of send attempts made, and whether the message was
delivered. -/
inductive SendResult where
  | panicked : SendResult
  | done : Nat → Nat → Bool → SendResult

/-- The socket after one non-panicking failed-send recovery in `send_message`
(src/steam.rs:58-70): rediscover via `get_context`; when discovery finds a
context, try to reconnect, replacing the held socket only when `connect`
succeeds; when discovery times out (or fails to reconnect), keep the old
socket.  (Used to state what `sendLoop` computes when no rediscovery
panics.) -/
def reconnectStep (env : SendEnv) (n : Nat) (sock : Nat) : Nat :=
  match getContext (env.disc n) with
  | .found ctx =>
    match env.connectSock n ctx with
    | some s => s
    | none => sock
  | _ => sock

/-- The `while retries > 0` loop of `SteamClient::send_message`
(src/steam.rs:51-75).  On a failed send, `Self::get_context().await` runs: a
found context leads to a reconnect attempt (the socket is replaced only on
success), a timeout keeps the old socket, and a panic inside `get_context`
(response-body read failure) propagates out of `send_message`.  `fuelOut`
cannot occur (`getContext_ne_fuelOut`). -/
def sendLoop (env : SendEnv) : Nat → Nat → Nat → SendResult
  | 0, sock, attempts => .done sock attempts false
  | Nat.succ r, sock, attempts =>
    if env.sendOk attempts sock then .done sock (attempts + 1) true
    else
      match getContext (env.disc attempts) with
      | .found ctx =>
        match env.connectSock attempts ctx with
        | some s => sendLoop env r s (attempts + 1)
        | none => sendLoop env r sock (attempts + 1)
      | .timeout _ => sendLoop env r sock (attempts + 1)
      | .panicked => .panicked
      | .fuelOut => .panicked

/-- Embedding of `SteamClient::send_message` (`let mut retries = 3`). -/
def send_message (env : SendEnv) (sock : Nat) : SendResult :=
  sendLoop env 3 sock 0

/-- Outcome of handling one inotify MODIFY event inside `watch`. -/
inductive EventOutcome where
  | panicked : EventOutcome
  | triggered : EventOutcome
  | noTrigger : EventOutcome

/-- The marker substring checked by the watcher. -/
def marker : List Char := "Verification complete".toList

/-- Handling of one MODIFY event on the watched log (src/steam.rs:181-204):
`File::open(..).unwrap()` (panics when opening fails — `openResult = none`),
then only `reader.lines().last()` is inspected: an `Ok` last line triggers one
connect→patch→reload cycle exactly when it contains the marker; an `Err` last
line and an empty file are logged and skipped. -/
def handleEvent (openResult : Option (List (Except Unit (List Char)))) : EventOutcome :=
  match openResult with
  | none => .panicked
  | some lines =>
    match lines.getLast? with
    | some (Except.ok line) =>
      if occursIn marker line then .triggered else .noTrigger
    | some (Except.error _) => .noTrigger
    | none => .noTrigger

/-- Environment of the startup section of `watch`: whether a process named
"steam" is running (`Self::is_running`, src/steam.rs:214-223, an external
process scan), the result of `Self::new()` (discovery + connect), the device's
patch list (`create_device`), and the filesystem. -/
structure OrchEnv where
  isRunning : Bool
  connectResult : Option Nat
  device : Option (List Patch)
  fs : FS

/-- Outcome of the startup section of `watch`: `returnedNone` means `watch`
itself returned `None` (so the inotify watcher is never armed), `armed
cycleRan patchOk rebootSent fs` means control reached the watcher-arming code
with the given cycle history. -/
inductive StartupOutcome where
  | panicked : StartupOutcome
  | returnedNone : StartupOutcome
  | armed : Bool → Option Bool → Bool → FS → StartupOutcome

/-- Startup section of `SteamClient::watch` (src/steam.rs:153-173), up to the
arming of the inotify watcher.  `Self::new().await?` propagates `None` out of
`watch` itself; on success the patch cycle runs only when a device exists, its
`Ok`/`Err` is logged (`patchOk`), and `client.reboot()` is called
unconditionally afterwards. -/
def watchStartup (env : OrchEnv) : StartupOutcome :=
  if env.isRunning then
    match env.connectResult with
    | none => .returnedNone
    | some _ =>
      match env.device with
      | some patches =>
        match steamPatch env.fs patches with
        | .panicked => .panicked
        | .ok fs' _ _ => .armed true (some true) true fs'
        | .error fs' _ _ => .armed true (some false) true fs'
      | none => .armed true none true env.fs
  else .armed false none false env.fs

/-- Embedding of `Path::join` (via `PathBuf::push`): an absolute right-hand
path replaces the base entirely; a relative one is appended after a
separator. -/
def pathJoin (base p : List Char) : List Char :=
  match p with
  | '/' :: _ => p
  | _ => base ++ '/' :: p

/-- Embedding of `SteamClient::get_log_path` (src/steam.rs:143-151):
`dirs::home_dir().map(|home| home.join(format!("/home/{}/...", username)))`;
the username (from `get_username`, an external collaborator) and the home
directory are parameters. -/
def get_log_path (username : String) (home : Option (List Char)) : Option (List Char) :=
  home.map fun h =>
    pathJoin h
      ("/home/".toList ++ username.toList ++ "/.local/share/Steam/logs/bootstrap_log.txt".toList)

/-! ## Concrete sample inputs (used by witnesses and counterexamples) -/

/-- Filesystem with a single readable file `"f"` containing `"a"`, all writes
succeeding. -/
def fsOneA : FS :=
  { files := fun q => if q = "f" then some ['a'] else none, writeOk := fun _ => true }

/-- Empty filesystem (every read fails), all writes succeeding. -/
def fsEmpty : FS :=
  { files := fun _ => none, writeOk := fun _ => true }

/-- A rule replacing `"a"` by `"b"` in file `"f"`. -/
def pAB : Patch := ⟨"f", ['a'], ['b']⟩

/-- A rule replacing `"a"` by `"aa"` in file `"f"` (its replacement
reintroduces its own pattern). -/
def pGrow : Patch := ⟨"f", ['a'], ['a', 'a']⟩

/-- Filesystem with `"f" ↦ "a"` and `"g" ↦ "b"`, where writing `"g"` fails. -/
def fsGFails : FS :=
  { files := fun q => if q = "f" then some ['a'] else if q = "g" then some ['b'] else none,
    writeOk := fun q => q ≠ "g" }

/-- Two rules, the second on the failing file `"g"`. -/
def patchesFG : List Patch := [⟨"f", ['a'], ['b']⟩, ⟨"g", ['b'], ['c']⟩]

/-- Filesystem with `"f" ↦ "ab"` and `"g" ↦ "x"`, all writes succeeding. -/
def fsTwoFiles : FS :=
  { files := fun q => if q = "f" then some ['a', 'b'] else if q = "g" then some ['x'] else none,
    writeOk := fun _ => true }

/-- Three rules: two on `"f"` (the second depending on the first's output),
one on `"g"` in between. -/
def patchesFGF : List Patch := [⟨"f", ['a'], ['b']⟩, ⟨"g", ['x'], ['y']⟩, ⟨"f", ['b'], ['c']⟩]

/-- Filesystem with `"f" ↦ "ab"`, all writes succeeding. -/
def fsAB : FS :=
  { files := fun q => if q = "f" then some ['a', 'b'] else none, writeOk := fun _ => true }

/-- Filesystem with `"f" ↦ "a"`, every write failing. -/
def fsNoWrite : FS :=
  { files := fun q => if q = "f" then some ['a'] else none, writeOk := fun _ => false }

/-- Discovery response with a wrong-url match first, then a wrong title, then
the real match. -/
def tabsSample : List Tab :=
  [⟨"SharedJSContext", ""⟩, ⟨"Other", "u1"⟩, ⟨"SharedJSContext", "ws://x"⟩]

/-- Discovery environment where every GET is a transport error, instantly. -/
def envAllTransportFail : DiscEnv :=
  { request := fun _ => .transportError, requestMs := fun _ => 0 }

/-- Discovery environment whose first GET fails while receiving the body. -/
def envBodyReadFail : DiscEnv :=
  { request := fun _ => .bodyReadError, requestMs := fun _ => 0 }

/-- Discovery environment: transport error on attempt 0, then a response
containing the matching tab. -/
def envRecover : DiscEnv :=
  { request := fun n =>
      match n with
      | 1 => .body (some [⟨"SharedJSContext", "w"⟩])
      | _ => .transportError,
    requestMs := fun _ => 0 }

/-- Send environment where every send fails and every rediscovery hits a
response-body read failure on its first GET (so `get_context` panics). -/
def envSendBodyFail : SendEnv :=
  { sendOk := fun _ _ => false, disc := fun _ => envBodyReadFail,
    connectSock := fun _ _ => none }

/-- Send environment where every send fails, every rediscovery finds the
context on its second GET, and reconnection always yields socket 9. -/
def envSendRecover : SendEnv :=
  { sendOk := fun _ _ => false, disc := fun _ => envRecover,
    connectSock := fun _ _ => some 9 }

/-- Log lines whose last line contains the marker. -/
def linesMarker : List (Except Unit (List Char)) :=
  [Except.ok ("2024 steam boot".toList), Except.ok ("x Verification complete ok".toList)]

/-- Orchestrator environment: steam running but connection fails. -/
def envConnFail : OrchEnv :=
  { isRunning := true, connectResult := none, device := none, fs := fsOneA }

/-- Orchestrator environment: steam running, connection made, one rule whose
write fails. -/
def envPatchFails : OrchEnv :=
  { isRunning := true, connectResult := some 0, device := some [pAB], fs := fsNoWrite }

/-! ## Lemmas about `replaceAll` and `occursIn` -/

theorem occursIn_nil_pat (s : List Char) : occursIn [] s = true := by
  cases s with
  | nil => rfl
  | cons c rest => simp [occursIn, List.isPrefixOf]

theorem pat_ne_nil_of_occursIn_false {pat s : List Char} (h : occursIn pat s = false) :
    pat ≠ [] := by
  intro hnil
  subst hnil
  rw [occursIn_nil_pat] at h
  exact absurd h (by simp)

theorem replaceGo_no_occur {pat rep : List Char} :
    ∀ s : List Char, occursIn pat s = false → replaceGo pat rep s 0 = s := by
  intro s
  induction s with
  | nil => intro _; rfl
  | cons c rest ih =>
    intro h
    rw [occursIn, Bool.or_eq_false_iff] at h
    rw [replaceGo, if_neg (by simp [h.1]), ih h.2]

theorem replaceAll_no_occur {pat rep s : List Char} (h : occursIn pat s = false) :
    replaceAll pat rep s = s := by
  have hne : pat ≠ [] := pat_ne_nil_of_occursIn_false h
  rw [replaceAll, if_neg (by simpa [List.isEmpty_iff] using hne)]
  exact replaceGo_no_occur s h

theorem applyRules_nil (c : List Char) : applyRules c [] = c := rfl

theorem applyRules_cons (c : List Char) (p : Patch) (ps : List Patch) :
    applyRules c (p :: ps) = applyRules (replaceAll p.text_to_find p.replacement_text c) ps := rfl

theorem applyRules_fixed {c : List Char} {ps : List Patch}
    (h : ∀ p ∈ ps, occursIn p.text_to_find c = false) : applyRules c ps = c := by
  induction ps with
  | nil => rfl
  | cons p rest ih =>
    rw [applyRules_cons, replaceAll_no_occur (h p (List.mem_cons_self p rest))]
    exact ih fun q hq => h q (List.mem_cons_of_mem p hq)

/-! ## Lemmas about the `opened_files` buffer -/

theorem lookupBuf_append (path : String) (l₁ l₂ : List (String × List Char)) :
    lookupBuf path (l₁ ++ l₂) =
      match lookupBuf path l₁ with
      | some c => some c
      | none => lookupBuf path l₂ := by
  induction l₁ with
  | nil => simp [lookupBuf]
  | cons e rest ih =>
    obtain ⟨q, c⟩ := e
    by_cases hq : q = path
    · simp [lookupBuf, hq]
    · simp [lookupBuf, hq, ih]

theorem lookupBuf_setBuf (path : String) (c : List Char) (buf : List (String × List Char)) :
    lookupBuf path (setBuf path c buf) = some c := by
  induction buf with
  | nil => simp [setBuf, lookupBuf]
  | cons e rest ih =>
    obtain ⟨q, d⟩ := e
    by_cases hq : q = path
    · simp [setBuf, hq, lookupBuf]
    · simp [setBuf, hq, lookupBuf, ih]

theorem lookupBuf_setBuf_ne (path q : String) (c : List Char)
    (buf : List (String × List Char)) (h : q ≠ path) :
    lookupBuf path (setBuf q c buf) = lookupBuf path buf := by
  induction buf with
  | nil => simp [setBuf, lookupBuf, h]
  | cons e rest ih =>
    obtain ⟨r, d⟩ := e
    by_cases hr : r = q
    · subst hr
      simp [setBuf, lookupBuf, h]
    · simp [setBuf, hr, lookupBuf, ih]

theorem setBuf_keys (path : String) (c : List Char) (buf : List (String × List Char))
    (h : lookupBuf path buf ≠ none) :
    (setBuf path c buf).map Prod.fst = buf.map Prod.fst := by
  induction buf with
  | nil => simp [lookupBuf] at h
  | cons e rest ih =>
    obtain ⟨q, d⟩ := e
    by_cases hq : q = path
    · simp [setBuf, hq]
    · rw [lookupBuf, if_neg hq] at h
      simp [setBuf, hq, ih h]

theorem lookupBuf_eq_none_iff (path : String) (buf : List (String × List Char)) :
    lookupBuf path buf = none ↔ path ∉ buf.map Prod.fst := by
  induction buf with
  | nil => simp [lookupBuf]
  | cons e rest ih =>
    obtain ⟨q, d⟩ := e
    by_cases hq : q = path
    · simp [lookupBuf, hq]
    · simp [lookupBuf, hq, ih, Ne.symm hq]

/-! ## Lemmas about `buildBuffer` -/

theorem buildBuffer_lookup_some {fs : FS} :
    ∀ (ps : List Patch) (buf : List (String × List Char)) (reads : List String)
      (buf' : List (String × List Char)) (reads' : List String) (path : String) (c : List Char),
      buildBuffer fs ps buf reads = some (buf', reads') →
      lookupBuf path buf = some c →
      lookupBuf path buf' = some (applyRules c (ps.filter fun p => p.destination = path)) := by
  intro ps
  induction ps with
  | nil =>
    intro buf reads buf' reads' path c h hc
    simp only [buildBuffer, Option.some.injEq, Prod.mk.injEq] at h
    rw [← h.1, hc]
    rfl
  | cons p rest ih =>
    intro buf reads buf' reads' path c h hc
    simp only [buildBuffer] at h
    cases hval : lookupBuf p.destination buf with
    | some d =>
      rw [hval] at h
      simp only [] at h
      by_cases hpd : p.destination = path
      · subst hpd
        rw [hval] at hc
        cases hc
        have hset : lookupBuf p.destination
            (setBuf p.destination (replaceAll p.text_to_find p.replacement_text c) buf) =
            some (replaceAll p.text_to_find p.replacement_text c) :=
          lookupBuf_setBuf _ _ _
        have := ih _ _ _ _ _ _ h hset
        rw [this]
        simp [applyRules_cons]
      · have hset : lookupBuf path
            (setBuf p.destination (replaceAll p.text_to_find p.replacement_text d) buf) =
            some c := by
          rw [lookupBuf_setBuf_ne path p.destination _ buf hpd, hc]
        have := ih _ _ _ _ _ _ h hset
        rw [this]
        simp [hpd]
    | none =>
      rw [hval] at h
      simp only [] at h
      cases hf : fs.files p.destination with
      | none => rw [hf] at h; exact absurd h (by simp)
      | some c0 =>
        rw [hf] at h
        simp only [] at h
        by_cases hpd : p.destination = path
        · subst hpd
          rw [hval] at hc
          exact absurd hc (by simp)
        · have happ : lookupBuf path
              (buf ++ [(p.destination, replaceAll p.text_to_find p.replacement_text c0)]) =
              some c := by
            rw [lookupBuf_append, hc]
          have := ih _ _ _ _ _ _ h happ
          rw [this]
          simp [hpd]

theorem buildBuffer_lookup_none {fs : FS} :
    ∀ (ps : List Patch) (buf : List (String × List Char)) (reads : List String)
      (buf' : List (String × List Char)) (reads' : List String) (path : String),
      buildBuffer fs ps buf reads = some (buf', reads') →
      lookupBuf path buf = none →
      (∀ p ∈ ps, p.destination ≠ path) →
      lookupBuf path buf' = none := by
  intro ps
  induction ps with
  | nil =>
    intro buf reads buf' reads' path h hc _
    simp only [buildBuffer, Option.some.injEq, Prod.mk.injEq] at h
    rw [← h.1]
    exact hc
  | cons p rest ih =>
    intro buf reads buf' reads' path h hc hne
    have hpd : p.destination ≠ path := hne p (List.mem_cons_self p rest)
    have hrest : ∀ q ∈ rest, q.destination ≠ path :=
      fun q hq => hne q (List.mem_cons_of_mem p hq)
    simp only [buildBuffer] at h
    cases hval : lookupBuf p.destination buf with
    | some d =>
      rw [hval] at h
      simp only [] at h
      refine ih _ _ _ _ _ h ?_ hrest
      rw [lookupBuf_setBuf_ne path p.destination _ buf hpd]
      exact hc
    | none =>
      rw [hval] at h
      simp only [] at h
      cases hf : fs.files p.destination with
      | none => rw [hf] at h; exact absurd h (by simp)
      | some c0 =>
        rw [hf] at h
        simp only [] at h
        refine ih _ _ _ _ _ h ?_ hrest
        rw [lookupBuf_append, hc]
        simp [lookupBuf, hpd]

theorem buildBuffer_lookup_mem {fs : FS} :
    ∀ (ps : List Patch) (buf : List (String × List Char)) (reads : List String)
      (buf' : List (String × List Char)) (reads' : List String) (path : String),
      buildBuffer fs ps buf reads = some (buf', reads') →
      lookupBuf path buf = none →
      (∃ p ∈ ps, p.destination = path) →
      ∃ c0, fs.files path = some c0 ∧
        lookupBuf path buf' =
          some (applyRules c0 (ps.filter fun p => p.destination = path)) := by
  intro ps
  induction ps with
  | nil =>
    intro buf reads buf' reads' path _ _ hmem
    obtain ⟨p, hp, _⟩ := hmem
    exact absurd hp (List.not_mem_nil p)
  | cons p rest ih =>
    intro buf reads buf' reads' path h hc hmem
    simp only [buildBuffer] at h
    cases hval : lookupBuf p.destination buf with
    | some d =>
      rw [hval] at h
      simp only [] at h
      have hpd : p.destination ≠ path := by
        intro he
        rw [he, hc] at hval
        exact absurd hval (by simp)
      have hmem' : ∃ q ∈ rest, q.destination = path := by
        obtain ⟨q, hq, hqd⟩ := hmem
        rcases List.mem_cons.mp hq with hqp | hq'
        · exact absurd (hqp ▸ hqd) hpd
        · exact ⟨q, hq', hqd⟩
      have hset : lookupBuf path
          (setBuf p.destination (replaceAll p.text_to_find p.replacement_text d) buf) = none := by
        rw [lookupBuf_setBuf_ne path p.destination _ buf hpd]
        exact hc
      obtain ⟨c0, hc0, hl⟩ := ih _ _ _ _ _ h hset hmem'
      exact ⟨c0, hc0, by rw [hl]; simp [hpd]⟩
    | none =>
      rw [hval] at h
      simp only [] at h
      cases hf : fs.files p.destination with
      | none => rw [hf] at h; exact absurd h (by simp)
      | some c0 =>
        rw [hf] at h
        simp only [] at h
        by_cases hpd : p.destination = path
        · subst hpd
          refine ⟨c0, hf, ?_⟩
          have happ : lookupBuf p.destination
              (buf ++ [(p.destination, replaceAll p.text_to_find p.replacement_text c0)]) =
              some (replaceAll p.text_to_find p.replacement_text c0) := by
            rw [lookupBuf_append, hc]
            simp [lookupBuf]
          have := buildBuffer_lookup_some _ _ _ _ _ _ _ h happ
          rw [this]
          simp [applyRules_cons]
        · have hmem' : ∃ q ∈ rest, q.destination = path := by
            obtain ⟨q, hq, hqd⟩ := hmem
            rcases List.mem_cons.mp hq with hqp | hq'
            · exact absurd (hqp ▸ hqd) hpd
            · exact ⟨q, hq', hqd⟩
          have happ : lookupBuf path
              (buf ++ [(p.destination, replaceAll p.text_to_find p.replacement_text c0)]) =
              none := by
            rw [lookupBuf_append, hc]
            simp [lookupBuf, hpd]
          obtain ⟨c1, hc1, hl⟩ := ih _ _ _ _ _ h happ hmem'
          exact ⟨c1, hc1, by rw [hl]; simp [hpd]⟩

theorem buildBuffer_reads_hit {fs : FS} :
    ∀ (ps : List Patch) (buf : List (String × List Char)) (reads : List String)
      (buf' : List (String × List Char)) (reads' : List String) (path : String) (c : List Char),
      buildBuffer fs ps buf reads = some (buf', reads') →
      lookupBuf path buf = some c →
      reads'.count path = reads.count path := by
  intro ps
  induction ps with
  | nil =>
    intro buf reads buf' reads' path c h _
    simp only [buildBuffer, Option.some.injEq, Prod.mk.injEq] at h
    rw [← h.2]
  | cons p rest ih =>
    intro buf reads buf' reads' path c h hc
    simp only [buildBuffer] at h
    cases hval : lookupBuf p.destination buf with
    | some d =>
      rw [hval] at h
      simp only [] at h
      by_cases hpd : p.destination = path
      · subst hpd
        exact ih _ _ _ _ _ _ h (lookupBuf_setBuf _ _ _)
      · exact ih _ _ _ _ _ c h
          (by rw [lookupBuf_setBuf_ne path p.destination _ buf hpd]; exact hc)
    | none =>
      rw [hval] at h
      simp only [] at h
      cases hf : fs.files p.destination with
      | none => rw [hf] at h; exact absurd h (by simp)
      | some c0 =>
        rw [hf] at h
        simp only [] at h
        have hpd : p.destination ≠ path := by
          intro he
          rw [he, hc] at hval
          exact absurd hval (by simp)
        have happ : lookupBuf path
            (buf ++ [(p.destination, replaceAll p.text_to_find p.replacement_text c0)]) =
            some c := by
          rw [lookupBuf_append, hc]
        have := ih _ _ _ _ _ _ h happ
        rw [this, List.count_append]
        simp [List.count_eq_zero, Ne.symm hpd]

theorem buildBuffer_reads_mem {fs : FS} :
    ∀ (ps : List Patch) (buf : List (String × List Char)) (reads : List String)
      (buf' : List (String × List Char)) (reads' : List String) (path : String),
      buildBuffer fs ps buf reads = some (buf', reads') →
      lookupBuf path buf = none →
      (∃ p ∈ ps, p.destination = path) →
      reads'.count path = reads.count path + 1 := by
  intro ps
  induction ps with
  | nil =>
    intro buf reads buf' reads' path _ _ hmem
    obtain ⟨p, hp, _⟩ := hmem
    exact absurd hp (List.not_mem_nil p)
  | cons p rest ih =>
    intro buf reads buf' reads' path h hc hmem
    simp only [buildBuffer] at h
    cases hval : lookupBuf p.destination buf with
    | some d =>
      rw [hval] at h
      simp only [] at h
      have hpd : p.destination ≠ path := by
        intro he
        rw [he, hc] at hval
        exact absurd hval (by simp)
      have hmem' : ∃ q ∈ rest, q.destination = path := by
        obtain ⟨q, hq, hqd⟩ := hmem
        rcases List.mem_cons.mp hq with hqp | hq'
        · exact absurd (hqp ▸ hqd) hpd
        · exact ⟨q, hq', hqd⟩
      refine ih _ _ _ _ _ h ?_ hmem'
      rw [lookupBuf_setBuf_ne path p.destination _ buf hpd]
      exact hc
    | none =>
      rw [hval] at h
      simp only [] at h
      cases hf : fs.files p.destination with
      | none => rw [hf] at h; exact absurd h (by simp)
      | some c0 =>
        rw [hf] at h
        simp only [] at h
        by_cases hpd : p.destination = path
        · subst hpd
          have happ : lookupBuf p.destination
              (buf ++ [(p.destination, replaceAll p.text_to_find p.replacement_text c0)]) =
              some (replaceAll p.text_to_find p.replacement_text c0) := by
            rw [lookupBuf_append, hc]
            simp [lookupBuf]
          have := buildBuffer_reads_hit _ _ _ _ _ _ _ h happ
          rw [this]
          simp [List.count_append, List.count_cons_self]
        · have hmem' : ∃ q ∈ rest, q.destination = path := by
            obtain ⟨q, hq, hqd⟩ := hmem
            rcases List.mem_cons.mp hq with hqp | hq'
            · exact absurd (hqp ▸ hqd) hpd
            · exact ⟨q, hq', hqd⟩
          have happ : lookupBuf path
              (buf ++ [(p.destination, replaceAll p.text_to_find p.replacement_text c0)]) =
              none := by
            rw [lookupBuf_append, hc]
            simp [lookupBuf, hpd]
          have := ih _ _ _ _ _ h happ hmem'
          rw [this, List.count_append]
          simp [List.count_eq_zero, Ne.symm hpd]

theorem buildBuffer_nodup {fs : FS} :
    ∀ (ps : List Patch) (buf : List (String × List Char)) (reads : List String)
      (buf' : List (String × List Char)) (reads' : List String),
      buildBuffer fs ps buf reads = some (buf', reads') →
      (buf.map Prod.fst).Nodup →
      (buf'.map Prod.fst).Nodup := by
  intro ps
  induction ps with
  | nil =>
    intro buf reads buf' reads' h hn
    simp only [buildBuffer, Option.some.injEq, Prod.mk.injEq] at h
    rw [← h.1]
    exact hn
  | cons p rest ih =>
    intro buf reads buf' reads' h hn
    simp only [buildBuffer] at h
    cases hval : lookupBuf p.destination buf with
    | some d =>
      rw [hval] at h
      simp only [] at h
      refine ih _ _ _ _ h ?_
      rw [setBuf_keys _ _ _ (by rw [hval]; simp)]
      exact hn
    | none =>
      rw [hval] at h
      simp only [] at h
      cases hf : fs.files p.destination with
      | none => rw [hf] at h; exact absurd h (by simp)
      | some c0 =>
        rw [hf] at h
        simp only [] at h
        refine ih _ _ _ _ h ?_
        have hnm : p.destination ∉ buf.map Prod.fst :=
          (lookupBuf_eq_none_iff p.destination buf).mp hval
        simp [List.nodup_append, hn, hnm]

theorem buildBuffer_keys_sub {fs : FS} :
    ∀ (ps : List Patch) (buf : List (String × List Char)) (reads : List String)
      (buf' : List (String × List Char)) (reads' : List String) (x : String),
      buildBuffer fs ps buf reads = some (buf', reads') →
      x ∈ buf'.map Prod.fst →
      x ∈ buf.map Prod.fst ∨ ∃ p ∈ ps, p.destination = x := by
  intro ps
  induction ps with
  | nil =>
    intro buf reads buf' reads' x h hx
    simp only [buildBuffer, Option.some.injEq, Prod.mk.injEq] at h
    rw [← h.1] at hx
    exact Or.inl hx
  | cons p rest ih =>
    intro buf reads buf' reads' x h hx
    simp only [buildBuffer] at h
    cases hval : lookupBuf p.destination buf with
    | some d =>
      rw [hval] at h
      simp only [] at h
      rcases ih _ _ _ _ _ h hx with hl | ⟨q, hq, hqd⟩
      · rw [setBuf_keys _ _ _ (by rw [hval]; simp)] at hl
        exact Or.inl hl
      · exact Or.inr ⟨q, List.mem_cons_of_mem p hq, hqd⟩
    | none =>
      rw [hval] at h
      simp only [] at h
      cases hf : fs.files p.destination with
      | none => rw [hf] at h; exact absurd h (by simp)
      | some c0 =>
        rw [hf] at h
        simp only [] at h
        rcases ih _ _ _ _ _ h hx with hl | ⟨q, hq, hqd⟩
        · simp only [List.map_append, List.mem_append] at hl
          rcases hl with hl | hl
          · exact Or.inl hl
          · simp at hl
            exact Or.inr ⟨p, List.mem_cons_self p rest, hl.symm⟩
        · exact Or.inr ⟨q, List.mem_cons_of_mem p hq, hqd⟩

theorem buildBuffer_total {fs : FS} :
    ∀ (ps : List Patch) (buf : List (String × List Char)) (reads : List String),
      (∀ p ∈ ps, (fs.files p.destination).isSome) →
      ∃ buf' reads', buildBuffer fs ps buf reads = some (buf', reads') := by
  intro ps
  induction ps with
  | nil => intro buf reads _; exact ⟨buf, reads, rfl⟩
  | cons p rest ih =>
    intro buf reads hall
    simp only [buildBuffer]
    cases hval : lookupBuf p.destination buf with
    | some d =>
      simp only []
      exact ih _ _ fun q hq => hall q (List.mem_cons_of_mem p hq)
    | none =>
      simp only []
      have := hall p (List.mem_cons_self p rest)
      cases hf : fs.files p.destination with
      | none => rw [hf] at this; exact absurd this (by simp)
      | some c0 =>
        simp only []
        exact ih _ _ fun q hq => hall q (List.mem_cons_of_mem p hq)

theorem buildBuffer_missing {fs : FS} :
    ∀ (ps : List Patch) (buf : List (String × List Char)) (reads : List String) (p : Patch),
      p ∈ ps →
      fs.files p.destination = none →
      (∀ q c, lookupBuf q buf = some c → (fs.files q).isSome) →
      buildBuffer fs ps buf reads = none := by
  intro ps
  induction ps with
  | nil => intro buf reads p hp _ _; exact absurd hp (List.not_mem_nil p)
  | cons q rest ih =>
    intro buf reads p hp hmiss hinv
    simp only [buildBuffer]
    cases hval : lookupBuf q.destination buf with
    | some d =>
      simp only []
      have hq : (fs.files q.destination).isSome := hinv _ _ hval
      have hpq : p ≠ q := by
        intro he
        rw [← he, hmiss] at hq
        exact absurd hq (by simp)
      have hp' : p ∈ rest := by
        rcases List.mem_cons.mp hp with he | hr
        · exact absurd he hpq
        · exact hr
      refine ih _ _ p hp' hmiss ?_
      intro x c hx
      by_cases hxq : q.destination = x
      · rw [← hxq]; exact hq
      · refine hinv x c ?_
        rw [← hx, lookupBuf_setBuf_ne x q.destination _ buf hxq]
    | none =>
      simp only []
      cases hf : fs.files q.destination with
      | none => rfl
      | some c0 =>
        simp only []
        have hpq : p ≠ q := by
          intro he
          rw [← he, hmiss] at hf
          exact absurd hf (by simp)
        have hp' : p ∈ rest := by
          rcases List.mem_cons.mp hp with he | hr
          · exact absurd he hpq
          · exact hr
        refine ih _ _ p hp' hmiss ?_
        intro x c hx
        rw [lookupBuf_append] at hx
        cases hx2 : lookupBuf x buf with
        | some c1 => exact hinv x c1 hx2
        | none =>
          rw [hx2] at hx
          simp only [lookupBuf] at hx
          by_cases hxq : q.destination = x
          · rw [← hxq, hf]; rfl
          · rw [if_neg hxq] at hx
            exact absurd hx (by simp [lookupBuf])

/-! ## Lemmas about `writeAll` -/

theorem writeAll_writeOk :
    ∀ (buf : List (String × List Char)) (fs : FS) (ws : List String),
      ((writeAll fs buf ws).1).writeOk = fs.writeOk := by
  intro buf
  induction buf with
  | nil => intro fs ws; rfl
  | cons e rest ih =>
    intro fs ws
    obtain ⟨p, c⟩ := e
    simp only [writeAll]
    by_cases hw : fs.writeOk p
    · rw [if_pos hw, ih]
      rfl
    · rw [if_neg hw]

theorem writeAll_true_all_ok :
    ∀ (buf : List (String × List Char)) (fs : FS) (ws ws' : List String) (fs' : FS),
      writeAll fs buf ws = (fs', ws', true) →
      ∀ e ∈ buf, fs.writeOk e.1 = true := by
  intro buf
  induction buf with
  | nil => intro fs ws ws' fs' _ e he; exact absurd he (List.not_mem_nil e)
  | cons x rest ih =>
    intro fs ws ws' fs' h e he
    obtain ⟨p, c⟩ := x
    simp only [writeAll] at h
    by_cases hw : fs.writeOk p
    · rw [if_pos hw] at h
      rcases List.mem_cons.mp he with he1 | he2
      · rw [he1]; exact hw
      · have := ih _ _ _ _ h e he2
        rw [show (FS.write fs p c).writeOk = fs.writeOk from rfl] at this
        exact this
    · rw [if_neg hw] at h
      exact absurd h (by simp)

theorem writeAll_success :
    ∀ (buf : List (String × List Char)) (fs : FS) (ws : List String),
      (buf.map Prod.fst).Nodup →
      (∀ e ∈ buf, fs.writeOk e.1 = true) →
      ∃ fs', writeAll fs buf ws = (fs', ws ++ buf.map Prod.fst, true) ∧
        (∀ x, fs'.files x =
          match lookupBuf x buf with
          | some v => some v
          | none => fs.files x) := by
  intro buf
  induction buf with
  | nil =>
    intro fs ws _ _
    exact ⟨fs, by simp [writeAll], fun x => by simp [lookupBuf]⟩
  | cons e rest ih =>
    intro fs ws hn hok
    obtain ⟨p, c⟩ := e
    have hw : fs.writeOk p = true := hok (p, c) (List.mem_cons_self _ _)
    have hn' : (rest.map Prod.fst).Nodup := by
      simp only [List.map_cons, List.nodup_cons] at hn
      exact hn.2
    have hpn : p ∉ rest.map Prod.fst := by
      simp only [List.map_cons, List.nodup_cons] at hn
      exact hn.1
    have hok' : ∀ e ∈ rest, (fs.write p c).writeOk e.1 = true := by
      intro e he
      exact hok e (List.mem_cons_of_mem _ he)
    obtain ⟨fs', heq, hfiles⟩ := ih (fs.write p c) (ws ++ [p]) hn' hok'
    refine ⟨fs', ?_, ?_⟩
    · simp only [writeAll, if_pos hw, heq]
      simp
    · intro x
      have := hfiles x
      by_cases hxp : x = p
      · subst hxp
        have hrest : lookupBuf x rest = none := (lookupBuf_eq_none_iff x rest).mpr hpn
        rw [hrest] at this
        rw [this]
        simp [lookupBuf, FS.write]
      · rw [this]
        cases hlx : lookupBuf x rest with
        | some v => simp [lookupBuf, Ne.symm hxp, hlx]
        | none => simp [lookupBuf, Ne.symm hxp, hlx, FS.write, hxp]

theorem writeAll_failure :
    ∀ (buf : List (String × List Char)) (fs : FS) (ws : List String),
      (buf.map Prod.fst).Nodup →
      (∃ e ∈ buf, fs.writeOk e.1 = false) →
      ∃ fs' ws2, writeAll fs buf ws = (fs', ws ++ ws2, false) ∧
        (∀ x ∈ ws2, ∃ v, lookupBuf x buf = some v ∧ fs'.files x = some v) ∧
        (∀ x, x ∉ ws2 → fs'.files x = fs.files x) ∧
        (∀ e ∈ buf, fs.writeOk e.1 = false → e.1 ∉ ws2) := by
  intro buf
  induction buf with
  | nil =>
    intro fs ws _ hex
    obtain ⟨e, he, _⟩ := hex
    exact absurd he (List.not_mem_nil e)
  | cons x rest ih =>
    intro fs ws hn hex
    obtain ⟨p, c⟩ := x
    have hn' : (rest.map Prod.fst).Nodup := by
      simp only [List.map_cons, List.nodup_cons] at hn
      exact hn.2
    have hpn : p ∉ rest.map Prod.fst := by
      simp only [List.map_cons, List.nodup_cons] at hn
      exact hn.1
    by_cases hw : fs.writeOk p
    · have hex' : ∃ e ∈ rest, (fs.write p c).writeOk e.1 = false := by
        obtain ⟨e, he, hef⟩ := hex
        rcases List.mem_cons.mp he with he1 | he2
        · rw [he1] at hef
          rw [hef] at hw
          exact absurd hw (by simp)
        · exact ⟨e, he2, hef⟩
      obtain ⟨fs', ws2', heq, hvals, hunch, hfail⟩ := ih (fs.write p c) (ws ++ [p]) hn' hex'
      have hpw : p ∉ ws2' := by
        intro hmem
        obtain ⟨v, hv, _⟩ := hvals p hmem
        rw [(lookupBuf_eq_none_iff p rest).mpr hpn] at hv
        exact absurd hv (by simp)
      refine ⟨fs', p :: ws2', ?_, ?_, ?_, ?_⟩
      · simp only [writeAll, if_pos hw, heq]
        simp
      · intro x hx
        rcases List.mem_cons.mp hx with hx1 | hx2
        · subst hx1
          refine ⟨c, by simp [lookupBuf], ?_⟩
          rw [hunch x hpw]
          simp [FS.write]
        · obtain ⟨v, hv, hfv⟩ := hvals x hx2
          have hxp : p ≠ x := by
            intro he
            rw [he] at hpn
            exact hpn ((lookupBuf_eq_none_iff x rest).not_left.mp (by rw [hv]; simp))
          exact ⟨v, by simp [lookupBuf, hxp, hv], hfv⟩
      · intro x hx
        have hx2 : x ∉ ws2' := fun hm => hx (List.mem_cons_of_mem _ hm)
        have hx1 : x ≠ p := fun he => hx (he ▸ List.mem_cons_self _ _)
        rw [hunch x hx2]
        simp [FS.write, hx1]
      · intro e he hef
        rcases List.mem_cons.mp he with he1 | he2
        · rw [he1] at hef
          rw [hef] at hw
          exact absurd hw (by simp)
        · have := hfail e he2 hef
          intro hmem
          rcases List.mem_cons.mp hmem with hm1 | hm2
          · have : e.1 ∈ rest.map Prod.fst := List.mem_map_of_mem Prod.fst he2
            rw [hm1] at this
            exact hpn this
          · exact this hm2
    · have hwf : fs.writeOk p = false := by
        cases hb : fs.writeOk p
        · rfl
        · exact absurd hb hw
      refine ⟨fs, [], ?_, ?_, ?_, ?_⟩
      · simp only [writeAll, if_neg hw]
        simp
      · intro x hx; exact absurd hx (List.not_mem_nil x)
      · intro x _; rfl
      · intro e _ _; exact List.not_mem_nil e.1

/-- Destructuring a successful run of `steamPatch` into its two phases. -/
theorem steamPatch_ok_elim {fs : FS} {patches : List Patch} {fs' : FS}
    {reads writes : List String}
    (h : steamPatch fs patches = .ok fs' reads writes) :
    ∃ buf, buildBuffer fs patches [] [] = some (buf, reads) ∧
      writeAll fs buf [] = (fs', writes, true) := by
  unfold steamPatch at h
  cases hbb : buildBuffer fs patches [] [] with
  | none => rw [hbb] at h; exact absurd h (by simp)
  | some pr =>
    obtain ⟨buf, reads0⟩ := pr
    rw [hbb] at h
    simp only [] at h
    rcases hwa : writeAll fs buf [] with ⟨fs1, ws1, flag⟩
    rw [hwa] at h
    cases flag with
    | false => exact absurd h (by simp)
    | true =>
      simp only [PatchResult.ok.injEq] at h
      obtain ⟨h1, h2, h3⟩ := h
      subst h1; subst h2; subst h3
      exact ⟨buf, rfl, hwa⟩

/-! ## Claims about `SteamClient::patch` -/

/-- C1 counterexample: a failing read does not produce an `Err`; the
`fs::read_to_string(..).unwrap()` in `patch` panics instead.  On a filesystem
where file `"f"` cannot be read, applying one rule targeting `"f"` panics
rather than returning an IO error. -/
theorem c1_read_error_counterexample :
    steamPatch fsEmpty [pAB] = PatchResult.panicked := rfl

/-- C1 (amended): if reading any target file fails, `patch` panics (unwrap)
rather than returning an IO error; if writing any buffered file fails,
`patch` aborts the remaining writes and returns an IO error to its caller,
and writes completed before the failing one remain on disk (files outside the
completed writes, including the failing one, are unchanged). -/
theorem c1_patch_failure_amended :
    (∀ (fs : FS) (patches : List Patch) (p : Patch),
      p ∈ patches → fs.files p.destination = none →
      steamPatch fs patches = PatchResult.panicked) ∧
    (∀ (fs : FS) (patches : List Patch) (buf : List (String × List Char))
       (reads : List String) (q : String) (c : List Char),
      buildBuffer fs patches [] [] = some (buf, reads) →
      (q, c) ∈ buf →
      fs.writeOk q = false →
      ∃ fs' writes, steamPatch fs patches = PatchResult.error fs' reads writes ∧
        (∀ x ∈ writes, ∃ v, lookupBuf x buf = some v ∧ fs'.files x = some v) ∧
        (∀ x, x ∉ writes → fs'.files x = fs.files x) ∧
        q ∉ writes) := by
  constructor
  · intro fs patches p hp hmiss
    have hbb : buildBuffer fs patches [] [] = none :=
      buildBuffer_missing patches [] [] p hp hmiss
        (fun q c h => absurd h (by simp [lookupBuf]))
    simp [steamPatch, hbb]
  · intro fs patches buf reads q c hbb hqc hwq
    have hnodup : (buf.map Prod.fst).Nodup :=
      buildBuffer_nodup patches [] [] buf reads hbb (by simp)
    obtain ⟨fs', ws2, heq, hvals, hunch, hfail⟩ :=
      writeAll_failure buf fs [] hnodup ⟨(q, c), hqc, hwq⟩
    refine ⟨fs', ws2, ?_, hvals, hunch, hfail (q, c) hqc hwq⟩
    simp only [steamPatch, hbb]
    rw [heq]
    rfl

/-- C1 witness: concrete run of the amended statement — two rules, the write
of `"g"` fails after `"f"` was written. -/
theorem c1_patch_failure_amended_witness :
    ∃ fs' writes,
      steamPatch fsGFails patchesFG = PatchResult.error fs' ["f", "g"] writes ∧
        (∀ x ∈ writes, ∃ v,
          lookupBuf x [("f", ['b']), ("g", ['c'])] = some v ∧ fs'.files x = some v) ∧
        (∀ x, x ∉ writes → fs'.files x = fsGFails.files x) ∧
        "g" ∉ writes :=
  c1_patch_failure_amended.2 fsGFails patchesFG [("f", ['b']), ("g", ['c'])] ["f", "g"]
    "g" ['c'] rfl (List.mem_cons_of_mem _ (List.mem_cons_self _ _)) rfl

/-- C2: for every patch list in which `path` occurs as the target of at least
one rule, a successful `patch` reads that file exactly once and writes it
exactly once, and the written contents are the result of applying all of the
path's rules, in list order, to the single in-memory buffer that started from
the file's contents (each rule a replace-all). -/
theorem c2_dedup_single_read_write (fs : FS) (patches : List Patch) (path : String)
    (fs' : FS) (reads writes : List String)
    (h : steamPatch fs patches = PatchResult.ok fs' reads writes)
    (hmem : ∃ p ∈ patches, p.destination = path) :
    reads.count path = 1 ∧ writes.count path = 1 ∧
    ∃ c0, fs.files path = some c0 ∧
      fs'.files path =
        some (applyRules c0 (patches.filter fun p => p.destination = path)) := by
  obtain ⟨buf, hbb, hwa⟩ := steamPatch_ok_elim h
  have hnodup : (buf.map Prod.fst).Nodup :=
    buildBuffer_nodup patches [] [] buf reads hbb (by simp)
  have hreads : reads.count path = 1 := by
    have := buildBuffer_reads_mem patches [] [] buf reads path hbb (by simp [lookupBuf]) hmem
    simpa using this
  obtain ⟨c0, hc0, hl⟩ :=
    buildBuffer_lookup_mem patches [] [] buf reads path hbb (by simp [lookupBuf]) hmem
  have hallok : ∀ e ∈ buf, fs.writeOk e.1 = true :=
    writeAll_true_all_ok buf fs [] writes fs' hwa
  obtain ⟨fs2, heq, hfiles⟩ := writeAll_success buf fs [] hnodup hallok
  rw [hwa] at heq
  simp only [Prod.mk.injEq] at heq
  obtain ⟨he1, he2, -⟩ := heq
  have hwrites : writes.count path = 1 := by
    have hmemk : path ∈ buf.map Prod.fst := by
      by_contra hnot
      have := (lookupBuf_eq_none_iff path buf).mpr hnot
      rw [hl] at this
      exact absurd this (by simp)
    rw [he2]
    simpa using List.count_eq_one_of_mem hnodup hmemk
  refine ⟨hreads, hwrites, c0, hc0, ?_⟩
  rw [← he1] at hfiles
  have := hfiles path
  rw [hl] at this
  exact this

/-- C2 witness: three rules, two of them on `"f"` with one on `"g"` in
between; `"f"` is read once, written once, and holds the in-order composition
of its two rules. -/
theorem c2_dedup_single_read_write_witness :
    (["f", "g"] : List String).count "f" = 1 ∧
    (["f", "g"] : List String).count "f" = 1 ∧
    ∃ c0, fsTwoFiles.files "f" = some c0 ∧
      ((fsTwoFiles.write "f" ['c', 'c']).write "g" ['y']).files "f" =
        some (applyRules c0 (patchesFGF.filter fun p => p.destination = "f")) :=
  c2_dedup_single_read_write fsTwoFiles patchesFGF "f"
    ((fsTwoFiles.write "f" ['c', 'c']).write "g" ['y']) ["f", "g"] ["f", "g"]
    rfl ⟨⟨"f", ['a'], ['b']⟩, by simp [patchesFGF], rfl⟩

/-- C3 counterexample: re-running `patch` is not idempotent for every rule
set.  With file `"f" = "a"` and the single rule `"a" → "aa"`, the first run
succeeds and leaves `"aa"`, and the second run succeeds and leaves `"aaaa"` —
the second run does change the file. -/
theorem c3_idempotence_counterexample :
    ((okFS (steamPatch fsOneA [pGrow])).map fun fs1 => fs1.files "f") =
      some (some ['a', 'a']) ∧
    ((okFS (steamPatch fsOneA [pGrow])).bind fun fs1 =>
        (okFS (steamPatch fs1 [pGrow])).map fun fs2 => fs2.files "f") =
      some (some ['a', 'a', 'a', 'a']) ∧
    (['a', 'a'] : List Char) ≠ ['a', 'a', 'a', 'a'] :=
  ⟨rfl, rfl, by decide⟩

/-- C3 (amended): re-running `patch` immediately after a successful run
changes no file, provided the first run's output no longer contains any
rule's `textToFind` in that rule's target file (the spec's own premise "if
`textToFind` is not present (already replaced)"; the counterexample shows the
unconditional claim fails when a replacement reintroduces its pattern). -/
theorem c3_idempotence_amended (fs : FS) (patches : List Patch) (fs1 : FS)
    (reads writes : List String)
    (h : steamPatch fs patches = PatchResult.ok fs1 reads writes)
    (hfix : ∀ p ∈ patches, ∀ c, fs1.files p.destination = some c →
      occursIn p.text_to_find c = false) :
    ∃ fs2 reads2 writes2, steamPatch fs1 patches = PatchResult.ok fs2 reads2 writes2 ∧
      ∀ q, fs2.files q = fs1.files q := by
  obtain ⟨buf, hbb, hwa⟩ := steamPatch_ok_elim h
  have hnodup : (buf.map Prod.fst).Nodup :=
    buildBuffer_nodup patches [] [] buf reads hbb (by simp)
  have hallok : ∀ e ∈ buf, fs.writeOk e.1 = true :=
    writeAll_true_all_ok buf fs [] writes fs1 hwa
  obtain ⟨fs2', heq, hfiles⟩ := writeAll_success buf fs [] hnodup hallok
  rw [hwa] at heq
  simp only [Prod.mk.injEq] at heq
  obtain ⟨he1, -, -⟩ := heq
  rw [← he1] at hfiles
  have hwok1 : fs1.writeOk = fs.writeOk := by
    have := writeAll_writeOk buf fs []
    rw [hwa] at this
    exact this
  -- every patch destination was buffered and written by the first run
  have hdest : ∀ p ∈ patches, ∃ v, lookupBuf p.destination buf = some v := by
    intro p hp
    obtain ⟨c0, -, hl⟩ :=
      buildBuffer_lookup_mem patches [] [] buf reads p.destination hbb
        (by simp [lookupBuf]) ⟨p, hp, rfl⟩
    exact ⟨_, hl⟩
  have hread1 : ∀ p ∈ patches, (fs1.files p.destination).isSome := by
    intro p hp
    obtain ⟨v, hv⟩ := hdest p hp
    have := hfiles p.destination
    rw [hv] at this
    rw [this]
    rfl
  obtain ⟨buf2, reads2, hbb2⟩ := buildBuffer_total patches [] [] hread1
  have hnodup2 : (buf2.map Prod.fst).Nodup :=
    buildBuffer_nodup patches [] [] buf2 reads2 hbb2 (by simp)
  -- every second-run buffer key is a patch destination
  have hkeys2 : ∀ x ∈ buf2.map Prod.fst, ∃ p ∈ patches, p.destination = x := by
    intro x hx
    rcases buildBuffer_keys_sub patches [] [] buf2 reads2 x hbb2 hx with hl | hr
    · exact absurd hl (by simp)
    · exact hr
  -- the second-run buffer holds the first run's contents unchanged
  have hstable : ∀ x v, lookupBuf x buf2 = some v → fs1.files x = some v := by
    intro x v hxv
    have hx : x ∈ buf2.map Prod.fst := by
      by_contra hnot
      rw [(lookupBuf_eq_none_iff x buf2).mpr hnot] at hxv
      exact absurd hxv (by simp)
    obtain ⟨p, hp, hpd⟩ := hkeys2 x hx
    obtain ⟨c1, hc1, hl2⟩ :=
      buildBuffer_lookup_mem patches [] [] buf2 reads2 x hbb2
        (by simp [lookupBuf]) ⟨p, hp, hpd⟩
    have hcfix : applyRules c1 (patches.filter fun p => p.destination = x) = c1 := by
      refine applyRules_fixed ?_
      intro r hr
      have hrmem := List.mem_filter.mp hr
      have hrd : r.destination = x := by simpa using hrmem.2
      exact hfix r hrmem.1 c1 (by rw [hrd]; exact hc1)
    rw [hl2, hcfix] at hxv
    rw [hc1]
    exact hxv.symm ▸ rfl
  -- the second run's writes all succeed
  have hallok2 : ∀ e ∈ buf2, fs1.writeOk e.1 = true := by
    intro e he
    obtain ⟨p, hp, hpd⟩ := hkeys2 e.1 (List.mem_map_of_mem Prod.fst he)
    obtain ⟨v, hv⟩ := hdest p hp
    have hkey1 : p.destination ∈ buf.map Prod.fst := by
      by_contra hnot
      rw [(lookupBuf_eq_none_iff _ buf).mpr hnot] at hv
      exact absurd hv (by simp)
    obtain ⟨e1, he1m, he1f⟩ := List.mem_map.mp hkey1
    have := hallok e1 he1m
    rw [hwok1, ← hpd, ← he1f]
    exact this
  obtain ⟨fs2, heq2, hfiles2⟩ := writeAll_success buf2 fs1 [] hnodup2 hallok2
  refine ⟨fs2, reads2, [] ++ buf2.map Prod.fst, ?_, ?_⟩
  · simp only [steamPatch, hbb2]
    rw [heq2]
  · intro q
    have := hfiles2 q
    cases hlq : lookupBuf q buf2 with
    | none => rw [hlq] at this; exact this
    | some v =>
      rw [hlq] at this
      rw [this, hstable q v hlq]

/-- C3 witness: concrete run of the amended statement — file `"f" = "ab"`,
rule `"a" → "b"`; after the first run (`"bb"`) the pattern is gone, and the
second run leaves every file unchanged. -/
theorem c3_idempotence_amended_witness :
    ∃ fs2 reads2 writes2,
      steamPatch (fsAB.write "f" ['b', 'b']) [pAB] = PatchResult.ok fs2 reads2 writes2 ∧
      ∀ q, fs2.files q = (fsAB.write "f" ['b', 'b']).files q :=
  c3_idempotence_amended fsAB [pAB] (fsAB.write "f" ['b', 'b']) ["f"] ["f"] rfl
    (by
      intro p hp c hc
      rw [List.mem_singleton] at hp
      subst hp
      have : (['b', 'b'] : List Char) = c := by
        have h2 : some ['b', 'b'] = some c := hc
        injection h2
      rw [← this]
      decide)

/-! ## Claims about `SteamClient::send_message` and `get_context` -/

/-- The discovery loop never exhausts its fuel as long as the fuel covers the
remaining time: every iteration advances elapsed time by at least 50 ms. -/
theorem getContextLoop_ne_fuelOut {env : DiscEnv} :
    ∀ (fuel n elapsed : Nat), 60001 ≤ elapsed + 50 * fuel →
      getContextLoop env fuel n elapsed ≠ GCResult.fuelOut := by
  intro fuel
  induction fuel with
  | zero =>
    intro n elapsed hle
    have hlt : 60000 < elapsed := by omega
    simp [getContextLoop, hlt]
  | succ f ih =>
    intro n elapsed hle
    by_cases hlt : 60000 < elapsed
    · simp [getContextLoop, hlt]
    · rw [getContextLoop, if_neg hlt]
      have hstep : 60001 ≤ elapsed + env.requestMs n + 50 + 50 * f := by omega
      cases hreq : env.request n with
      | transportError => exact ih (n + 1) _ hstep
      | bodyReadError => simp
      | body parsed =>
        cases hsel : selectTab (parsed.getD []) with
        | some url => simp [hsel]
        | none =>
          simp only [hsel]
          exact ih (n + 1) _ hstep

/-- `get_context` never returns the fuel artifact. -/
theorem getContext_ne_fuelOut (env : DiscEnv) : getContext env ≠ GCResult.fuelOut :=
  getContextLoop_ne_fuelOut 1202 0 0 (by omega)

/-- One failed-send iteration of `sendLoop`, when that attempt's rediscovery
does not panic, recurses on the `reconnectStep`-evolved socket. -/
theorem sendLoop_step (env : SendEnv) (r sock k : Nat)
    (hs : env.sendOk k sock = false)
    (hp : getContext (env.disc k) ≠ GCResult.panicked) :
    sendLoop env (Nat.succ r) sock k = sendLoop env r (reconnectStep env k sock) (k + 1) := by
  rw [sendLoop, if_neg (by simp [hs])]
  cases hg : getContext (env.disc k) with
  | found ctx =>
    cases hc : env.connectSock k ctx with
    | some s => simp [reconnectStep, hg, hc]
    | none => simp [reconnectStep, hg, hc]
  | timeout e => simp [reconnectStep, hg]
  | panicked => exact absurd hg hp
  | fuelOut => exact absurd hg (getContext_ne_fuelOut _)

/-- C4 counterexample: with every send failing, a response-body read failure
during the first rediscovery panics the process after a single send attempt —
neither 3 attempts nor a silent drop.  (`envSendBodyFail.sendOk` is the
constantly-false function, and its rediscoveries hit
`to_bytes(..).unwrap()`.) -/
theorem c4_rediscovery_panic_counterexample :
    send_message envSendBodyFail 5 = SendResult.panicked := rfl

/-- C4 (amended): when every send fails and no rediscovery panics (no
response-body read failure inside `get_context`), `send_message` makes
exactly 3 send attempts and then drops the message silently, the held socket
evolving by one `reconnectStep` per failure — replaced only when reconnection
succeeds, kept when discovery or reconnection fails; but when a rediscovery
does panic, the panic propagates out of `send_message` mid-retry. -/
theorem c4_send_retry_bound_amended :
    (∀ (env : SendEnv) (sock : Nat),
      (∀ n s, env.sendOk n s = false) →
      (∀ n, getContext (env.disc n) ≠ GCResult.panicked) →
      send_message env sock =
        SendResult.done
          (reconnectStep env 2 (reconnectStep env 1 (reconnectStep env 0 sock))) 3 false) ∧
    (∀ (env : SendEnv) (sock : Nat),
      env.sendOk 0 sock = false →
      getContext (env.disc 0) = GCResult.panicked →
      send_message env sock = SendResult.panicked) := by
  constructor
  · intro env sock h1 h2
    calc send_message env sock
        = sendLoop env 3 sock 0 := rfl
      _ = sendLoop env 2 (reconnectStep env 0 sock) 1 :=
          sendLoop_step env 2 sock 0 (h1 0 sock) (h2 0)
      _ = sendLoop env 1 (reconnectStep env 1 (reconnectStep env 0 sock)) 2 :=
          sendLoop_step env 1 _ 1 (h1 1 _) (h2 1)
      _ = sendLoop env 0
            (reconnectStep env 2 (reconnectStep env 1 (reconnectStep env 0 sock))) 3 :=
          sendLoop_step env 0 _ 2 (h1 2 _) (h2 2)
      _ = SendResult.done
            (reconnectStep env 2 (reconnectStep env 1 (reconnectStep env 0 sock))) 3 false := rfl
  · intro env sock hs hp
    show sendLoop env 3 sock 0 = SendResult.panicked
    rw [show (3 : Nat) = Nat.succ 2 from rfl, sendLoop, if_neg (by simp [hs]), hp]

/-- C4 witness: every send fails, every rediscovery finds the context on its
second GET without panicking, and reconnection always yields socket 9: 3
attempts are made, the message is dropped, and the held socket was replaced
by the reconnect. -/
theorem c4_send_retry_bound_amended_witness :
    send_message envSendRecover 5 = SendResult.done 9 3 false :=
  c4_send_retry_bound_amended.1 envSendRecover 5 (fun _ _ => rfl)
    (fun _ h => GCResult.noConfusion
      ((show getContext envRecover = GCResult.found "w" from rfl).symm.trans h))

/-- C5: the tab selection of `get_context` returns the endpoint URL of the
first tab, in response order, whose title is exactly `"SharedJSContext"` and
whose `webSocketDebuggerUrl` is non-empty; and any selected URL comes from a
tab of the response satisfying both conditions. -/
theorem c5_tab_selection :
    (∀ (tabs : List Tab) (i : Nat) (hi : i < tabs.length),
      tabMatches (tabs.get ⟨i, hi⟩) = true →
      (∀ j, j < i → ∀ (hj : j < tabs.length), tabMatches (tabs.get ⟨j, hj⟩) = false) →
      selectTab tabs = some (tabs.get ⟨i, hi⟩).webSocketDebuggerUrl) ∧
    (∀ (tabs : List Tab) (url : String), selectTab tabs = some url →
      ∃ tab, tab ∈ tabs ∧ tab.title = "SharedJSContext" ∧
        tab.webSocketDebuggerUrl ≠ "" ∧ url = tab.webSocketDebuggerUrl) := by
  constructor
  · intro tabs
    induction tabs with
    | nil => intro i hi; exact absurd hi (Nat.not_lt_zero i)
    | cons t rest ih =>
      intro i hi hm hprev
      cases i with
      | zero =>
        simp only [List.get] at hm ⊢
        simp [selectTab, List.find?_cons_of_pos _ hm]
      | succ n =>
        have ht : tabMatches t = false := hprev 0 (Nat.succ_pos n) (Nat.succ_pos _)
        have hn : n < rest.length := Nat.lt_of_succ_lt_succ hi
        have hprev' : ∀ j, j < n → ∀ (hj : j < rest.length),
            tabMatches (rest.get ⟨j, hj⟩) = false := by
          intro j hj hjl
          exact hprev (j + 1) (Nat.succ_lt_succ hj) (Nat.succ_lt_succ hjl)
        have hrest := ih n hn hm hprev'
        have hcons : List.find? tabMatches (t :: rest) = List.find? tabMatches rest :=
          List.find?_cons_of_neg rest (by simp [ht])
        show (List.find? tabMatches (t :: rest)).map (fun tab => tab.webSocketDebuggerUrl) = _
        rw [hcons]
        exact hrest
  · intro tabs url h
    simp only [selectTab, Option.map_eq_some'] at h
    obtain ⟨tab, hfind, hurl⟩ := h
    have hmem : tab ∈ tabs := List.mem_of_find?_eq_some hfind
    have hp : tabMatches tab = true := List.find?_some hfind
    simp only [tabMatches, Bool.and_eq_true, beq_iff_eq, Bool.not_eq_true'] at hp
    refine ⟨tab, hmem, hp.1, ?_, hurl.symm⟩
    intro he
    rw [← String.isEmpty_iff] at he
    rw [hp.2] at he
    exact absurd he (by simp)

/-- C5 witness: a response whose first tab has the right title but an empty
URL, second a wrong title, third the real target: the third is selected. -/
theorem c5_tab_selection_witness :
    selectTab tabsSample = some "ws://x" :=
  c5_tab_selection.1 tabsSample 2 (by decide) rfl
    (by
      intro j hj hjl
      interval_cases j
      · rfl
      · rfl)

/-- Invariant of the discovery loop: as long as every attempt completes
without a match, the loop returns `None` (`.timeout`) with more than 60 s
elapsed, provided the fuel covers the remaining time (each iteration advances
elapsed time by at least 50 ms). -/
theorem getContextLoop_timeout {env : DiscEnv} :
    ∀ (fuel n elapsed : Nat), (∀ m, attemptFails env m) →
      60001 ≤ elapsed + 50 * fuel →
      ∃ e, getContextLoop env fuel n elapsed = GCResult.timeout e ∧ 60000 < e := by
  intro fuel
  induction fuel with
  | zero =>
    intro n elapsed _ hle
    simp only [Nat.mul_zero, Nat.add_zero] at hle
    have hlt : 60000 < elapsed := hle
    exact ⟨elapsed, by simp [getContextLoop, hlt], hlt⟩
  | succ f ih =>
    intro n elapsed hfail hle
    by_cases hlt : 60000 < elapsed
    · exact ⟨elapsed, by simp [getContextLoop, hlt], hlt⟩
    · have hstep : 60001 ≤ elapsed + env.requestMs n + 50 + 50 * f := by
        have : 60001 ≤ elapsed + 50 * (f + 1) := hle
        omega
      have hf := hfail n
      rw [attemptFails] at hf
      cases hreq : env.request n with
      | transportError =>
        obtain ⟨e, he, hegt⟩ := ih (n + 1) (elapsed + env.requestMs n + 50) hfail hstep
        refine ⟨e, ?_, hegt⟩
        rw [getContextLoop, if_neg hlt, hreq]
        exact he
      | bodyReadError => rw [hreq] at hf; exact absurd hf id
      | body parsed =>
        rw [hreq] at hf
        obtain ⟨e, he, hegt⟩ := ih (n + 1) (elapsed + env.requestMs n + 50) hfail hstep
        refine ⟨e, ?_, hegt⟩
        rw [getContextLoop, if_neg hlt, hreq]
        simp only [hf]
        exact he

/-- C6: when no attempt ever yields a matching target (transport errors and
received bodies — malformed bodies parsing as zero tabs included — with no
matching tab), `get_context` returns `None` with elapsed time strictly beyond
60 000 ms; moreover a malformed body (`.body none`) makes the loop proceed to
the next attempt after the 50 ms sleep exactly as a zero-target response
does, rather than failing. -/
theorem c6_discovery_timeout :
    (∀ env : DiscEnv, (∀ n, attemptFails env n) →
      ∃ e, getContext env = GCResult.timeout e ∧ 60000 < e) ∧
    (∀ (env : DiscEnv) (n elapsed fuel : Nat), env.request n = RequestOutcome.body none →
      getContextLoop env (fuel + 1) n elapsed =
        if 60000 < elapsed then GCResult.timeout elapsed
        else getContextLoop env fuel (n + 1) (elapsed + env.requestMs n + 50)) := by
  constructor
  · intro env hfail
    exact getContextLoop_timeout 1202 0 0 hfail (by omega)
  · intro env n elapsed fuel hreq
    by_cases hlt : 60000 < elapsed
    · simp [getContextLoop, hlt]
    · rw [getContextLoop, if_neg hlt, hreq, if_neg hlt]
      simp only [Option.getD]
      rfl

/-- C6 witness: an environment where every GET is an instant transport error;
discovery times out at 60 050 ms elapsed. -/
theorem c6_discovery_timeout_witness :
    ∃ e, getContext envAllTransportFail = GCResult.timeout e ∧ 60000 < e :=
  c6_discovery_timeout.1 envAllTransportFail (fun _ => trivial)

/-- C7 counterexample: a failure while receiving the response body is not
retried — `hyper::body::to_bytes(..).unwrap()` panics on the first such
failure, terminating the process. -/
theorem c7_body_read_panics_counterexample :
    getContext envBodyReadFail = GCResult.panicked := rfl

/-- C7 (amended): transport errors during discovery are logged and retried
(a later successful attempt still wins), and an unreadable last line of the
watched log is logged and skipped; but a failure while receiving the
discovery response body panics the process, as does a failure to open the
watched log file at event time. -/
theorem c7_error_propagation_amended :
    (∀ (env : DiscEnv) (tabs : List Tab) (url : String),
      env.request 0 = RequestOutcome.transportError →
      env.request 1 = RequestOutcome.body (some tabs) →
      selectTab tabs = some url →
      env.requestMs 0 + 50 ≤ 60000 →
      getContext env = GCResult.found url) ∧
    (∀ env : DiscEnv, env.request 0 = RequestOutcome.bodyReadError →
      getContext env = GCResult.panicked) ∧
    (∀ (lines : List (Except Unit (List Char))) (e : Unit),
      lines.getLast? = some (Except.error e) →
      handleEvent (some lines) = EventOutcome.noTrigger) ∧
    (handleEvent none = EventOutcome.panicked) := by
  refine ⟨?_, ?_, ?_, rfl⟩
  · intro env tabs url h0 h1 hsel hms
    show getContextLoop env 1202 0 0 = GCResult.found url
    rw [show (1202 : Nat) = Nat.succ 1201 from rfl, getContextLoop,
      if_neg (by omega), h0]
    have hlt : ¬60000 < 0 + env.requestMs 0 + 50 := by omega
    rw [show (1201 : Nat) = Nat.succ 1200 from rfl, getContextLoop, if_neg hlt, h1]
    simp only [Option.getD, hsel]
  · intro env h0
    show getContextLoop env 1202 0 0 = GCResult.panicked
    rw [show (1202 : Nat) = Nat.succ 1201 from rfl, getContextLoop,
      if_neg (by omega), h0]
  · intro lines e hlast
    rw [handleEvent, hlast]

/-- C7 witness: concrete environment — transport error on attempt 0, a
matching response on attempt 1: discovery recovers and returns the URL. -/
theorem c7_error_propagation_amended_witness :
    getContext envRecover = GCResult.found "w" :=
  c7_error_propagation_amended.1 envRecover [⟨"SharedJSContext", "w"⟩] "w"
    rfl rfl rfl (by decide)

/-! ## Claims about the log watcher, startup orchestration and paths -/

/-- C8: per MODIFY event only the last line is inspected: an `Ok` last line
containing `"Verification complete"` triggers exactly one cycle; an `Ok` last
line without the marker triggers none (even if earlier lines contain it); an
empty file and an unreadable (`Err`) last line are logged and produce no
trigger and no crash. -/
theorem c8_marker_detection :
    (∀ (lines : List (Except Unit (List Char))) (l : List Char),
      lines.getLast? = some (Except.ok l) → occursIn marker l = true →
      handleEvent (some lines) = EventOutcome.triggered) ∧
    (∀ (lines : List (Except Unit (List Char))) (l : List Char),
      lines.getLast? = some (Except.ok l) → occursIn marker l = false →
      handleEvent (some lines) = EventOutcome.noTrigger) ∧
    (handleEvent (some []) = EventOutcome.noTrigger) ∧
    (∀ (lines : List (Except Unit (List Char))) (e : Unit),
      lines.getLast? = some (Except.error e) →
      handleEvent (some lines) = EventOutcome.noTrigger) := by
  refine ⟨?_, ?_, rfl, ?_⟩
  · intro lines l hlast hocc
    simp [handleEvent, hlast, hocc]
  · intro lines l hlast hocc
    simp [handleEvent, hlast, hocc]
  · intro lines e hlast
    simp [handleEvent, hlast]

/-- C8 witness: a log whose last line contains the marker (and whose first
line does not) triggers the cycle. -/
theorem c8_marker_detection_witness :
    handleEvent (some linesMarker) = EventOutcome.triggered :=
  c8_marker_detection.1 linesMarker ("x Verification complete ok".toList) rfl rfl

/-- C9 counterexample: with the target process running and `Self::new()`
returning `None`, `watch` does not proceed to arm the LogWatcher — the `?` on
`Self::new().await?` makes `watch` itself return `None` (silently, nothing
logged), so the watcher is never armed. -/
theorem c9_connect_none_counterexample :
    watchStartup envConnFail = StartupOutcome.returnedNone := rfl

/-- C9 (amended): the startup patch cycle runs only when the target process
is detected as running (otherwise the watcher is armed with no cycle); when
it runs and connect returns `None`, `watch` returns `None` and the LogWatcher
is never armed (contrary to the original claim); when connect succeeds, the
reload command is sent regardless of whether the apply step succeeded or
failed. -/
theorem c9_startup_gating_amended :
    (∀ env : OrchEnv, env.isRunning = false →
      watchStartup env = StartupOutcome.armed false none false env.fs) ∧
    (∀ env : OrchEnv, env.isRunning = true → env.connectResult = none →
      watchStartup env = StartupOutcome.returnedNone) ∧
    (∀ (env : OrchEnv) (c : Nat) (patches : List Patch) (fs' : FS) (r w : List String),
      env.isRunning = true → env.connectResult = some c → env.device = some patches →
      (steamPatch env.fs patches = PatchResult.ok fs' r w →
        watchStartup env = StartupOutcome.armed true (some true) true fs') ∧
      (steamPatch env.fs patches = PatchResult.error fs' r w →
        watchStartup env = StartupOutcome.armed true (some false) true fs')) := by
  refine ⟨?_, ?_, ?_⟩
  · intro env h
    simp [watchStartup, h]
  · intro env h hc
    simp [watchStartup, h, hc]
  · intro env c patches fs' r w h hc hd
    constructor
    · intro hp
      simp [watchStartup, h, hc, hd, hp]
    · intro hp
      simp [watchStartup, h, hc, hd, hp]

/-- C9 witness: process running, connection made, single rule whose write
fails — the apply step returns an error, yet the reboot (reload) is still
sent and the watcher is armed. -/
theorem c9_startup_gating_amended_witness :
    watchStartup envPatchFails = StartupOutcome.armed true (some false) true fsNoWrite :=
  (c9_startup_gating_amended.2.2 envPatchFails 0 [pAB] fsNoWrite ["f"] []
    rfl rfl rfl).2 rfl

/-- C10: whenever a home directory exists, `get_log_path` returns exactly
`"/home/<username>/.local/share/Steam/logs/bootstrap_log.txt"`, for every
home directory: joining the absolute format string discards the home prefix
entirely. -/
theorem c10_log_path_absolute (username : String) (home : List Char) :
    get_log_path username (some home) =
      some ("/home/".toList ++ username.toList ++
        "/.local/share/Steam/logs/bootstrap_log.txt".toList) := rfl

end SteamPatch
